import Mathlib

/-!
# Verification of the fastcrypto class-group / VDF core

This file shallowly embeds the core of the fastcrypto repository's class-group VDF:

* `extended_euclidean_algorithm` from `fastcrypto-vdf/src/extended_gcd.rs`;
* the `Discriminant` validation and the quadratic-form constructors and the NUCOMP-style
  `double` from `fastcrypto/src/groups/class_group/mod.rs`;
* the compressed form representation from `fastcrypto/src/groups/classgroup.rs`;
* the generic Wesolowski VDF (`evaluate`, `verify`, the fast verifier) from
  `fastcrypto-vdf/src/vdf/wesolowski.rs`, stated over an abstract group interface mirroring
  the `ParameterizedGroupElement` trait.

Rust `BigInt` arithmetic is embedded as `Int` arithmetic: `div_rem` is truncated division
(`Int.tdiv` / `Int.tmod`), `div_mod_floor` and `div_floor` are floor division
(`Int.fdiv` / `Int.fmod`), and `modulus` (the always-nonnegative remainder) is `Int.emod`.
Loops are written with an explicit fuel argument; where a theorem depends on the loop
running to completion, a lemma shows the chosen fuel suffices.
-/

/-- The error kinds of the library's `FastCryptoError` that the verified code paths can
produce. `inputTooLong` and `inputLengthWrong` carry the offending size, as in the source. -/
inductive FastCryptoError where
  | invalidInput
  | invalidProof
  | inputTooLong (n : Nat)
  | inputLengthWrong (n : Nat)
deriving DecidableEq

namespace ExtendedGcd

/-- Output of `extended_euclidean_algorithm` (`fastcrypto-vdf/src/extended_gcd.rs`):
the gcd, the Bezout coefficients `x`, `y` with `a*x + b*y = gcd`, and the quotients of
the two inputs by the gcd. -/
structure EuclideanAlgorithmOutput where
  gcd : Int
  x : Int
  y : Int
  a_divided_by_gcd : Int
  b_divided_by_gcd : Int
deriving DecidableEq

/-- `EuclideanAlgorithmOutput::flip`: swap the roles of the two inputs. -/
def EuclideanAlgorithmOutput.flip (o : EuclideanAlgorithmOutput) : EuclideanAlgorithmOutput :=
  ⟨o.gcd, o.y, o.x, o.b_divided_by_gcd, o.a_divided_by_gcd⟩

/-- The `while !r.0.is_zero()` loop of `extended_euclidean_algorithm`. Each round divides
`r.1` by `r.0` (`BigInt::div_rem`, truncated division) and updates the cofactor pairs `s`
and `t` by the source's swap-and-subtract closure `f`. Rust's `r.0` is the first component
of the Lean pair. The fuel argument only bounds the recursion; `xgcdLoop_reaches_zero`
shows the fuel passed by `eeaBody` lets the loop run to completion. -/
def xgcdLoop : Nat → Int × Int → Int × Int → Int × Int →
    (Int × Int) × (Int × Int) × (Int × Int)
  | 0, s, t, r => (s, t, r)
  | fuel + 1, s, t, r =>
    if r.1 = 0 then (s, t, r)
    else
      let q := r.2.tdiv r.1
      xgcdLoop fuel (s.2 - q * s.1, s.1) (t.2 - q * t.1, t.1) (r.2.tmod r.1, r.1)

/-- The body of `extended_euclidean_algorithm` that runs when the initial `b < a` swap
does not fire: the loop followed by the sign corrections of the quotients and of the
gcd and Bezout coefficients. -/
def eeaBody (a b : Int) : EuclideanAlgorithmOutput :=
  let res := xgcdLoop (a.natAbs + 1) (0, 1) (1, 0) (a, b)
  let s := res.1
  let t := res.2.1
  let r := res.2.2
  let a_divided_by_gcd := if a.sign ≠ s.1.sign then -s.1 else s.1
  let b_divided_by_gcd := if b.sign ≠ t.1.sign then -t.1 else t.1
  if ¬ r.2 < 0 then ⟨r.2, t.2, s.2, a_divided_by_gcd, b_divided_by_gcd⟩
  else ⟨-r.2, -t.2, -s.2, a_divided_by_gcd, b_divided_by_gcd⟩

/-- `extended_euclidean_algorithm(a, b)` from `fastcrypto-vdf/src/extended_gcd.rs`:
when `b < a` the source recurses once with the operands swapped and flips the result. -/
def extended_euclidean_algorithm (a b : Int) : EuclideanAlgorithmOutput :=
  if b < a then (eeaBody b a).flip else eeaBody a b

/-- The loop invariant of `xgcdLoop` for original inputs `a`, `b`: both remainders are the
tracked integer combinations of `a` and `b`, and the cofactor determinant is `±1`. -/
def XgcdInv (a b : Int) (st : (Int × Int) × (Int × Int) × (Int × Int)) : Prop :=
  st.2.2.1 = st.2.1.1 * a + st.1.1 * b ∧
  st.2.2.2 = st.2.1.2 * a + st.1.2 * b ∧
  (st.1.1 * st.2.1.2 - st.1.2 * st.2.1.1 = 1 ∨ st.1.1 * st.2.1.2 - st.1.2 * st.2.1.1 = -1)

theorem natAbs_tmod_eq (a b : Int) : (a.tmod b).natAbs = a.natAbs % b.natAbs := by
  cases a <;> cases b <;> simp [Int.tmod, Int.natAbs_neg] <;> norm_cast

theorem xgcdLoop_inv (a b : Int) :
    ∀ (fuel : Nat) (s t r : Int × Int), XgcdInv a b (s, t, r) →
      XgcdInv a b (xgcdLoop fuel s t r) := by
  intro fuel
  induction fuel with
  | zero => intro s t r h; exact h
  | succ n ih =>
    intro s t r h
    rw [xgcdLoop]
    by_cases h0 : r.1 = 0
    · rw [if_pos h0]; exact h
    · rw [if_neg h0]
      obtain ⟨h1, h2, h3⟩ := h
      have hm : r.2.tmod r.1 = r.2 - r.1 * (r.2.tdiv r.1) := by
        have := Int.tdiv_add_tmod r.2 r.1
        linarith
      refine ih _ _ _ ⟨?_, ?_, ?_⟩
      · simp only
        rw [hm, h1, h2]; ring
      · simpa using h1
      · simp only
        rcases h3 with h3 | h3
        · right; linear_combination -h3
        · left; linear_combination -h3

theorem xgcdLoop_reaches_zero :
    ∀ (fuel : Nat) (s t r : Int × Int), r.1.natAbs < fuel →
      ((xgcdLoop fuel s t r).2.2).1 = 0 := by
  intro fuel
  induction fuel with
  | zero => intro s t r h; omega
  | succ n ih =>
    intro s t r h
    rw [xgcdLoop]
    by_cases h0 : r.1 = 0
    · rw [if_pos h0]; exact h0
    · rw [if_neg h0]
      refine ih _ _ _ ?_
      have := natAbs_tmod_eq r.2 r.1
      have hpos : 0 < r.1.natAbs := Int.natAbs_pos.mpr h0
      have := Nat.mod_lt r.2.natAbs hpos
      simp only
      omega

theorem sign_fix (a w R e : Int) (he : e = 1 ∨ e = -1) (h : w * R = e * a) :
    (if a.sign ≠ w.sign then -w else w) * (if ¬ R < 0 then R else -R) = a := by
  have habs : (if ¬ R < 0 then R else -R) = |R| := by
    by_cases hR : R < 0
    · simp [hR, abs_of_neg hR]
    · simp [hR, abs_of_nonneg (by omega : (0 : Int) ≤ R)]
  rw [habs]
  rcases eq_or_ne a 0 with rfl | ha
  · have hwR : w * R = 0 := by rcases he with rfl | rfl <;> simpa using h
    rcases mul_eq_zero.mp hwR with hw | hR
    · subst hw; simp
    · subst hR; simp
  · have hwR : w ≠ 0 ∧ R ≠ 0 := by
      constructor <;> rintro rfl <;> rcases he with rfl | rfl <;> simp at h <;> omega
    have habsa : |w| * |R| = |a| := by
      have := abs_mul w R
      rw [h, abs_mul] at this
      rcases he with rfl | rfl <;> simpa using this.symm
    set W := (if a.sign ≠ w.sign then -w else w) with hWdef
    have hW : W.sign = a.sign := by
      rw [hWdef]
      by_cases hne : a.sign = w.sign
      · simp [hne]
      · rw [if_pos hne, Int.sign_neg]
        have hsa : a.sign = 1 ∨ a.sign = -1 := by
          rcases lt_trichotomy a 0 with h1 | h1 | h1
          · exact Or.inr (Int.sign_eq_neg_one_iff_neg.mpr h1)
          · exact absurd h1 ha
          · exact Or.inl (Int.sign_eq_one_iff_pos.mpr h1)
        have hsw : w.sign = 1 ∨ w.sign = -1 := by
          rcases lt_trichotomy w 0 with h1 | h1 | h1
          · exact Or.inr (Int.sign_eq_neg_one_iff_neg.mpr h1)
          · exact absurd h1 hwR.1
          · exact Or.inl (Int.sign_eq_one_iff_pos.mpr h1)
        rcases hsa with h2 | h2 <;> rcases hsw with h3 | h3 <;> rw [h2, h3] at hne ⊢ <;> omega
    have habsW : |W| = |w| := by
      rw [hWdef]
      by_cases hne : a.sign = w.sign <;> simp [hne]
    have h4 : Int.sign |R| = 1 := Int.sign_eq_one_iff_pos.mpr (abs_pos.mpr hwR.2)
    have hkey := Int.sign_mul_abs (W * |R|)
    rw [Int.sign_mul, hW, h4, mul_one, abs_mul, habsW, abs_abs, habsa,
      Int.sign_mul_abs] at hkey
    exact hkey.symm

theorem eeaBody_spec (a b : Int) :
    0 ≤ (eeaBody a b).gcd ∧
    (eeaBody a b).x * a + (eeaBody a b).y * b = (eeaBody a b).gcd ∧
    (eeaBody a b).gcd * (eeaBody a b).a_divided_by_gcd = a ∧
    (eeaBody a b).gcd * (eeaBody a b).b_divided_by_gcd = b := by
  have hInv := xgcdLoop_inv a b (a.natAbs + 1) (0, 1) (1, 0) (a, b)
    ⟨by simp, by simp, Or.inr (by simp)⟩
  have h0 := xgcdLoop_reaches_zero (a.natAbs + 1) (0, 1) (1, 0) (a, b) (by omega)
  rcases hL : xgcdLoop (a.natAbs + 1) (0, 1) (1, 0) (a, b) with ⟨⟨s1, s2⟩, ⟨t1, t2⟩, r1, r2⟩
  rw [hL] at hInv h0
  obtain ⟨h1, h2, h3⟩ := hInv
  simp only at h1 h2 h3 h0
  subst h0
  have key1 : ∀ e : Int, s1 * t2 - s2 * t1 = e → s1 * r2 = e * a := by
    intro e hdet
    linear_combination s1 * h2 + a * hdet + s2 * h1.symm
  have key2 : ∀ e : Int, s1 * t2 - s2 * t1 = e → t1 * r2 = -e * b := by
    intro e hdet
    linear_combination t1 * h2 - b * hdet + t2 * h1.symm
  have hqa : (if ¬ r2 < 0 then r2 else -r2) * (if a.sign ≠ s1.sign then -s1 else s1) = a := by
    rw [mul_comm]
    rcases h3 with h3 | h3
    · exact sign_fix a s1 r2 1 (Or.inl rfl) (by simpa using key1 1 h3)
    · exact sign_fix a s1 r2 (-1) (Or.inr rfl) (by simpa using key1 (-1) h3)
  have hqb : (if ¬ r2 < 0 then r2 else -r2) * (if b.sign ≠ t1.sign then -t1 else t1) = b := by
    rw [mul_comm]
    rcases h3 with h3 | h3
    · exact sign_fix b t1 r2 (-1) (Or.inr rfl) (by simpa using key2 1 h3)
    · exact sign_fix b t1 r2 1 (Or.inl rfl) (by simpa using key2 (-1) h3)
  simp only [eeaBody, hL]
  by_cases hneg : r2 < 0
  · rw [if_neg (not_not_intro hneg)] at hqa hqb ⊢
    refine ⟨?_, ?_, ?_, ?_⟩ <;> dsimp only
    · omega
    · linarith
    · exact hqa
    · exact hqb
  · rw [if_pos hneg] at hqa hqb ⊢
    refine ⟨?_, ?_, ?_, ?_⟩ <;> dsimp only
    · omega
    · linarith
    · exact hqa
    · exact hqb

theorem extended_euclidean_algorithm_spec (a b : Int) :
    0 ≤ (extended_euclidean_algorithm a b).gcd ∧
    (extended_euclidean_algorithm a b).x * a + (extended_euclidean_algorithm a b).y * b
      = (extended_euclidean_algorithm a b).gcd ∧
    (extended_euclidean_algorithm a b).gcd * (extended_euclidean_algorithm a b).a_divided_by_gcd
      = a ∧
    (extended_euclidean_algorithm a b).gcd * (extended_euclidean_algorithm a b).b_divided_by_gcd
      = b := by
  unfold extended_euclidean_algorithm
  by_cases h : b < a
  · rw [if_pos h]
    obtain ⟨g1, g2, g3, g4⟩ := eeaBody_spec b a
    exact ⟨g1, by rw [EuclideanAlgorithmOutput.flip]; linarith,
      by rw [EuclideanAlgorithmOutput.flip]; exact g4,
      by rw [EuclideanAlgorithmOutput.flip]; exact g3⟩
  · rw [if_neg h]
    exact eeaBody_spec a b


/-- C3: for all signed integers `a` and `b`, `extended_euclidean_algorithm(a, b)` returns a
nonnegative gcd with Bezout coefficients satisfying `x*a + y*b = gcd`, and quotients that are
exactly `a / gcd` and `b / gcd` (stated multiplicatively so the degenerate input `(0, 0)` is
covered, and as exact division whenever the gcd is nonzero); in particular `a = 240, b = 46`
and all four sign combinations of these operands return gcd 2. -/
theorem extended_gcd_correct :
    (∀ a b : Int,
      0 ≤ (extended_euclidean_algorithm a b).gcd ∧
      (extended_euclidean_algorithm a b).x * a + (extended_euclidean_algorithm a b).y * b
        = (extended_euclidean_algorithm a b).gcd ∧
      (extended_euclidean_algorithm a b).gcd * (extended_euclidean_algorithm a b).a_divided_by_gcd
        = a ∧
      (extended_euclidean_algorithm a b).gcd * (extended_euclidean_algorithm a b).b_divided_by_gcd
        = b ∧
      ((extended_euclidean_algorithm a b).gcd ≠ 0 →
        (extended_euclidean_algorithm a b).a_divided_by_gcd
            = a / (extended_euclidean_algorithm a b).gcd ∧
          (extended_euclidean_algorithm a b).b_divided_by_gcd
            = b / (extended_euclidean_algorithm a b).gcd)) ∧
    (extended_euclidean_algorithm 240 46).gcd = 2 ∧
    (extended_euclidean_algorithm (-240) 46).gcd = 2 ∧
    (extended_euclidean_algorithm 240 (-46)).gcd = 2 ∧
    (extended_euclidean_algorithm (-240) (-46)).gcd = 2 := by
  refine ⟨fun a b => ?_, by decide, by decide, by decide, by decide⟩
  obtain ⟨g1, g2, g3, g4⟩ := extended_euclidean_algorithm_spec a b
  set o := extended_euclidean_algorithm a b with ho
  refine ⟨g1, g2, g3, g4, fun hg => ⟨?_, ?_⟩⟩
  · rw [← g3, Int.mul_ediv_cancel_left _ hg]
  · rw [← g4, Int.mul_ediv_cancel_left _ hg]

end ExtendedGcd

deriving instance DecidableEq for Except

namespace ClassGroupMod

/-- `MAX_DISCRIMINANT_SIZE_IN_BITS` from `fastcrypto/src/groups/class_group/mod.rs`. -/
def MAX_DISCRIMINANT_SIZE_IN_BITS : Nat := 1024

/-- Halving recursion behind `bit_length`; the first argument is fuel (`n` halvings always
reach 0 within `n` steps for the fuel chosen in `bit_length`). -/
def bitLenAux : Nat → Nat → Nat
  | 0, _ => 0
  | fuel + 1, n => if n = 0 then 0 else bitLenAux fuel (n / 2) + 1

/-- `BigInt::bit_length`: the number of binary digits of the absolute value (0 for 0). -/
def bit_length (v : Int) : Nat := bitLenAux v.natAbs v.natAbs

/-- The `Discriminant` newtype of `fastcrypto/src/groups/class_group/mod.rs`: a negative
integer equal to 1 mod 4, only constructed through `tryFromDiscriminant`. -/
structure Discriminant where
  val : Int
deriving DecidableEq

/-- `TryFrom<BigInt> for Discriminant`: reject a nonnegative value or one that is not
1 mod 4 with `InvalidInput`, then an over-long value with `InputTooLong(bit_length)`.
`modulus` of the source (the nonnegative remainder) is `%` on `Int`. -/
def tryFromDiscriminant (value : Int) : Except FastCryptoError Discriminant :=
  if 0 ≤ value ∨ value % 4 ≠ 1 then .error .invalidInput
  else if MAX_DISCRIMINANT_SIZE_IN_BITS < bit_length value then
    .error (.inputTooLong (bit_length value))
  else .ok ⟨value⟩

/-- Floor integer square root: models the `sqrt` of the external big-integer library, used
by the source for `partial_gcd_limit = |discriminant|^(1/4)` and for the `partial_xgcd`
bound of `classgroup.rs`. -/
def isqrt (n : Nat) : Nat :=
  ((List.range (n + 1)).filter (fun k => Nat.ble (k * k) n)).length - 1

/-- The `BinaryQF` coefficient triple `(a, b, c)` standing for `ax² + bxy + cy²`. -/
structure BinaryQF where
  a : Int
  b : Int
  c : Int
deriving DecidableEq

/-- `BinaryQF::discriminant`: `b² - 4ac`. -/
def BinaryQF.discriminant (f : BinaryQF) : Int := f.b * f.b - 4 * f.a * f.c

/-- `QuadraticForm` of `fastcrypto/src/groups/class_group/mod.rs`: a form together with the
derived `partial_gcd_limit = |discriminant|^(1/4)` used by the doubling algorithm. -/
structure QuadraticForm where
  form : BinaryQF
  partial_gcd_limit : Int
deriving DecidableEq

/-- `QuadraticForm::from_a_b_discriminant`: `c = (b² - discriminant) / (4a)` with the
truncated `BigInt` division of the source. -/
def QuadraticForm.from_a_b_discriminant (a b : Int) (d : Discriminant) : QuadraticForm :=
  { form := { a := a, b := b, c := ((b * b) - d.val).tdiv (4 * a) },
    partial_gcd_limit := (isqrt (isqrt d.val.natAbs) : Int) }

/-- `QuadraticForm::zero` (`ParameterizedGroupElement::zero`): the form `(1, 1, x)`. -/
def QuadraticForm.zero (d : Discriminant) : QuadraticForm :=
  QuadraticForm.from_a_b_discriminant 1 1 d

/-- `QuadraticForm::generator`: the form `(2, 1, x)`. -/
def QuadraticForm.generator (d : Discriminant) : QuadraticForm :=
  QuadraticForm.from_a_b_discriminant 2 1 d

/-- Fuel-bounded loop of the extended Euclidean algorithm used to model the external
big-integer library's `extended_gcd` called by `QuadraticForm::double`. State:
`(old_r, r, old_s, s, old_t, t)` with the standard update. -/
def curvXgcdLoop : Nat → Int → Int → Int → Int → Int → Int → Int × Int × Int
  | 0, old_r, _, old_s, _, old_t, _ => (old_r, old_s, old_t)
  | fuel + 1, old_r, r, old_s, s, old_t, t =>
    if r = 0 then (old_r, old_s, old_t)
    else
      let q := old_r.tdiv r
      curvXgcdLoop fuel r (old_r - q * r) s (old_s - q * s) t (old_t - q * t)

/-- Models `BigInt::extended_gcd(u, v)` of the external big-integer dependency: `(g, x, y)`
with `u*x + v*y = g`. The theorems below rely on it only at `(3, 3)`, where the num-bigint
and GMP implementations agree on `(3, 0, 1)`, and the `y`-dependence is in any case
discharged for every possible Bezout coefficient in `double_escapes_class_group`. -/
def curvXgcd (u v : Int) : Int × Int × Int :=
  curvXgcdLoop (v.natAbs + 1) u v 1 0 0 1

/-- Modelled from the spec: normalization step of the reduction of a quadratic form
(`BinaryQF::reduce` lives in the external class_group crate, not among the staged sources).
Shifts `b` into the interval `(-a, a]` keeping the discriminant. -/
def qfNormalize (f : BinaryQF) : BinaryQF :=
  let r := (f.a - f.b).fdiv (2 * f.a)
  { a := f.a, b := f.b + 2 * r * f.a, c := f.a * r * r + f.b * r + f.c }

/-- Modelled from the spec: the reduction loop, swapping `(a, b, c) ↦ (c, -b, a)` and
renormalizing until `a ≤ c` with the tie-break `b ≥ 0` when `a = c` (section 4.2 of the
specification). The fuel only bounds the recursion; every step keeps the discriminant,
which is the only property the theorems below use. -/
def qfReduceAux : Nat → BinaryQF → BinaryQF
  | 0, f => f
  | fuel + 1, f =>
    if f.c < f.a ∨ (f.a = f.c ∧ f.b < 0) then
      qfReduceAux fuel (qfNormalize { a := f.c, b := -f.b, c := f.a })
    else f

/-- Modelled from the spec: reduction to the canonical representative. -/
def qfReduce (f : BinaryQF) : BinaryQF :=
  qfReduceAux (f.a.natAbs + f.b.natAbs + f.c.natAbs + 1) (qfNormalize f)

/-- Step 3 of `QuadraticForm::double`: the partial extended-GCD loop
`while by.abs() > partial_gcd_limit && !bx.is_zero()`, with state `(bx, by, x, y, z)`
(`by` is a Lean keyword, so it is written `b_y`). `div_rem` is truncated division. -/
def partialLoop (limit : Int) : Nat → Int → Int → Int → Int → Nat →
    Int × Int × Int × Int × Nat
  | 0, bx, b_y, x, y, z => (bx, b_y, x, y, z)
  | fuel + 1, bx, b_y, x, y, z =>
    if limit < |b_y| ∧ bx ≠ 0 then
      let q := b_y.tdiv bx
      partialLoop limit fuel (b_y.tmod bx) bx (y - q * x) x (z + 1)
    else (bx, b_y, x, y, z)

/-- `QuadraticForm::double` (steps 2-5), given the gcd `g` of `(u, v)` and the already
reduced-mod-`capital_by` value `capital_bx = (w * y) mod capital_by` of step 2. Mirrors the
source exactly: `(capital_by, capital_dy)` are `(u / g, v / g)` when `g == 1` (a no-op
division) and `(u, v)` otherwise, then the partial xgcd, the parity flip, and the two
branches on `z == 0`, each ending in a reduction. -/
def doubleWithBx (g capital_bx : Int) (fq : QuadraticForm) : QuadraticForm :=
  let u := fq.form.a
  let v := fq.form.b
  let w := fq.form.c
  let capital_by := if g = 1 then u.tdiv g else u
  let capital_dy := if g = 1 then v.tdiv g else v
  let st := partialLoop fq.partial_gcd_limit (capital_bx.natAbs + 1) capital_bx capital_by 1 0 0
  let bx := st.1
  let b_y1 := st.2.1
  let x1 := st.2.2.1
  let y1 := st.2.2.2.1
  let z := st.2.2.2.2
  let b_y := if z % 2 = 1 then -b_y1 else b_y1
  let y2 := if z % 2 = 1 then -y1 else y1
  let u3 := b_y ^ 2
  let w3 := bx ^ 2
  let v3 := -(bx * b_y) * 2
  if z = 0 then
    let dx0 := (bx * capital_dy - w).tdiv capital_by
    let dx := if g ≠ 1 then dx0 * g else dx0
    { form := qfReduce { a := u3, b := v3 + v, c := w3 - dx },
      partial_gcd_limit := fq.partial_gcd_limit }
  else
    let dx := (bx * capital_dy - w * x1).tdiv capital_by
    let q1 := dx * y2
    let dy := (q1 + capital_dy).tdiv x1
    let x2 := if g ≠ 1 then x1 * g else x1
    let y3 := if g ≠ 1 then y2 * g else y2
    { form := qfReduce { a := u3 - y3 * dy, b := v3 + g * (dy + q1), c := w3 - x2 * dx },
      partial_gcd_limit := fq.partial_gcd_limit }

/-- `QuadraticForm::double` given the `(g, y)` returned by the extended gcd of step 1:
step 2 computes `capital_bx = (w * y).modulus(capital_by)` (the nonnegative remainder). -/
def doubleWithXgcd (g y0 : Int) (fq : QuadraticForm) : QuadraticForm :=
  let capital_by := if g = 1 then fq.form.a.tdiv g else fq.form.a
  doubleWithBx g ((fq.form.c * y0) % capital_by) fq

/-- `QuadraticForm::double` from `fastcrypto/src/groups/class_group/mod.rs`: the NUCOMP
(algorithm 2) derived squaring. -/
def QuadraticForm.double (fq : QuadraticForm) : QuadraticForm :=
  let xg := curvXgcd fq.form.a fq.form.b
  doubleWithXgcd xg.1 xg.2.2 fq

/-- A canonical (reduced, positive definite, primitive) form: `0 < a`, `|b| ≤ a ≤ c` with
the sign of `b` fixed on the boundary, and coprime coefficients. -/
def IsCanonical (f : BinaryQF) : Prop :=
  0 < f.a ∧ |f.b| ≤ f.a ∧ f.a ≤ f.c ∧ (|f.b| = f.a ∨ f.a = f.c → 0 ≤ f.b) ∧
    Int.gcd (Int.gcd f.a f.b) f.c = 1

instance (f : BinaryQF) : Decidable (IsCanonical f) := by
  unfold IsCanonical
  infer_instance

/-- `Discriminant::from_seed` from `fastcrypto-vdf/src/vdf/wesolowski.rs`. Its prime
sampler is in hash_prime.rs, which is not among the staged sources, so it is passed as a
parameter. Modelled from the spec: `hash_prime` hashes the seed to a `size_in_bits / 8`
byte candidate with the listed bit positions forced and searches for a probable prime; the
claims below only concern the `size_in_bits % 8 != 0` guard, which is in the staged code. -/
def discriminant_from_seed (hashPrime : List Nat → Nat → List Nat → Int)
    (seed : List Nat) (size_in_bits : Nat) : Except FastCryptoError Discriminant :=
  if size_in_bits % 8 ≠ 0 then .error .invalidInput
  else tryFromDiscriminant (-(hashPrime seed (size_in_bits / 8) [0, 1, 2, size_in_bits - 1]))

theorem tryFromDiscriminant_ok_iff (v : Int) :
    tryFromDiscriminant v = .ok ⟨v⟩ ↔ v < 0 ∧ v % 4 = 1 ∧ bit_length v ≤ 1024 := by
  unfold tryFromDiscriminant MAX_DISCRIMINANT_SIZE_IN_BITS
  split_ifs with h1 h2
  · constructor
    · intro h; exact absurd h (by simp)
    · intro h; exfalso; omega
  · constructor
    · intro h; exact absurd h (by simp)
    · intro h; omega
  · constructor
    · intro _; refine ⟨by omega, by omega, by omega⟩
    · intro _; rfl

theorem discriminant_validation_parts :
    (∀ v : Int, (0 ≤ v ∨ v % 4 ≠ 1) → tryFromDiscriminant v = .error .invalidInput) ∧
    (∀ v : Int, v < 0 → v % 4 = 1 → 1024 < bit_length v →
      tryFromDiscriminant v = .error (.inputTooLong (bit_length v))) := by
  constructor
  · intro v h
    unfold tryFromDiscriminant
    rw [if_pos h]
  · intro v h1 h2 h3
    unfold tryFromDiscriminant MAX_DISCRIMINANT_SIZE_IN_BITS
    rw [if_neg (by omega), if_pos h3]

theorem from_seed_guard (hashPrime : List Nat → Nat → List Nat → Int) (seed : List Nat)
    (n : Nat) (h : n % 8 ≠ 0) :
    discriminant_from_seed hashPrime seed n = .error .invalidInput := by
  unfold discriminant_from_seed
  rw [if_pos h]

/-- C8: `Discriminant::try_from` succeeds exactly on a negative value that is 1 mod 4 and
at most 1024 bits long, failing with `InvalidInput` on a wrong sign or congruence and with
`InputTooLong` (carrying the bit length) on an oversized value; and
`Discriminant::from_seed` fails with `InvalidInput` whenever `size_in_bits` is not
divisible by 8. -/
theorem discriminant_validation :
    (∀ v : Int, tryFromDiscriminant v = .ok ⟨v⟩ ↔
      v < 0 ∧ v % 4 = 1 ∧ bit_length v ≤ 1024) ∧
    (∀ v : Int, (0 ≤ v ∨ v % 4 ≠ 1) → tryFromDiscriminant v = .error .invalidInput) ∧
    (∀ v : Int, v < 0 → v % 4 = 1 → 1024 < bit_length v →
      tryFromDiscriminant v = .error (.inputTooLong (bit_length v))) ∧
    (∀ (hashPrime : List Nat → Nat → List Nat → Int) (seed : List Nat) (n : Nat),
      n % 8 ≠ 0 → discriminant_from_seed hashPrime seed n = .error .invalidInput) :=
  ⟨tryFromDiscriminant_ok_iff, discriminant_validation_parts.1,
    discriminant_validation_parts.2, from_seed_guard⟩

/-- C10 counterexample: `-11` passes `Discriminant::try_from` (it is negative and 1 mod 4),
but `QuadraticForm::generator(-11)` computes `c = (1 - D) / 8` with an inexact division
(`12 / 8 = 1`), so the constructed form `(2, 1, 1)` has discriminant `-7`, not `-11`; the
constructed `zero` is fine. -/
theorem generator_discriminant_cex :
    tryFromDiscriminant (-11) = .ok ⟨-11⟩ ∧
    (QuadraticForm.generator ⟨-11⟩).form = { a := 2, b := 1, c := 1 } ∧
    (QuadraticForm.generator ⟨-11⟩).form.discriminant = -7 ∧
    ((-7 : Int) = -11 → False) ∧
    (QuadraticForm.zero ⟨-11⟩).form.discriminant = -11 := by decide

/-- C10 (amended): for every value accepted by `Discriminant::try_from`, the `zero` form
`(1, 1, (1-D)/4)` has discriminant exactly `D`; the `generator` form `(2, 1, (1-D)/8)` has
discriminant exactly `D` when additionally `D ≡ 1 (mod 8)` (as every `from_seed`-derived
discriminant is), the division being exact in those cases. -/
theorem from_a_b_discriminant_exact (v : Int) (h : tryFromDiscriminant v = .ok ⟨v⟩) :
    (QuadraticForm.zero ⟨v⟩).form.discriminant = v ∧
    (v % 8 = 1 → (QuadraticForm.generator ⟨v⟩).form.discriminant = v) := by
  obtain ⟨hv, hm, _⟩ := (tryFromDiscriminant_ok_iff v).mp h
  constructor
  · have h4 : (4 : Int) ∣ 1 - v := by omega
    show 1 * 1 - 4 * 1 * ((1 * 1 - v).tdiv (4 * 1)) = v
    have he : ((1 * 1 - v) : Int) = 1 - v := by ring
    rw [he, show ((4 : Int) * 1) = 4 by ring, Int.tdiv_eq_ediv_of_dvd h4]
    have := Int.mul_ediv_cancel' h4
    linarith
  · intro h8
    have hd : (8 : Int) ∣ 1 - v := by omega
    show 1 * 1 - 4 * 2 * ((1 * 1 - v).tdiv (4 * 2)) = v
    have he : ((1 * 1 - v) : Int) = 1 - v := by ring
    rw [he, show ((4 : Int) * 2) = 8 by norm_num, Int.tdiv_eq_ediv_of_dvd hd]
    have := Int.mul_ediv_cancel' hd
    linarith

/-- Witness for `from_a_b_discriminant_exact` at the accepted discriminant `-7 ≡ 1 mod 8`:
both constructed forms lie in the class group of `-7`. -/
theorem from_a_b_discriminant_exact_instance :
    (QuadraticForm.zero ⟨-7⟩).form.discriminant = -7 ∧
    (QuadraticForm.generator ⟨-7⟩).form.discriminant = -7 := by
  have h := from_a_b_discriminant_exact (-7) (by decide)
  exact ⟨h.1, h.2 (by decide)⟩

/-- C1: the NUCOMP-derived `QuadraticForm::double` does not compute `x + x` on every
reduced form of a valid discriminant. `(3, 3, 4)` is a canonical primitive form of the
accepted discriminant `-39`, but `double` maps it to a form of a different discriminant
(`0`), for every possible Bezout coefficient `y` the external extended gcd could return
for `gcd(3, 3)` — composition `x + x` always keeps the discriminant, so `double x ≠ x + x`
there. The cause: the source assigns `(capital_by, capital_dy) = (u / g, v / g)` only when
`g == 1` (where dividing is a no-op) and skips the division when `g ≠ 1`, inverting the
cited paper's step, so the later exact divisions by `capital_by` do not divide evenly. -/
theorem double_escapes_class_group :
    tryFromDiscriminant (-39) = .ok ⟨-39⟩ ∧
    (QuadraticForm.from_a_b_discriminant 3 3 ⟨-39⟩).form = { a := 3, b := 3, c := 4 } ∧
    IsCanonical { a := 3, b := 3, c := 4 } ∧
    BinaryQF.discriminant { a := 3, b := 3, c := 4 } = -39 ∧
    QuadraticForm.double (QuadraticForm.from_a_b_discriminant 3 3 ⟨-39⟩)
      = doubleWithXgcd 3 1 (QuadraticForm.from_a_b_discriminant 3 3 ⟨-39⟩) ∧
    (QuadraticForm.double (QuadraticForm.from_a_b_discriminant 3 3 ⟨-39⟩)).form.discriminant
      = 0 ∧
    ((0 : Int) = -39 → False) ∧
    (∀ y0 : Int,
      ((doubleWithXgcd 3 y0 (QuadraticForm.from_a_b_discriminant 3 3 ⟨-39⟩)).form).discriminant
        ≠ -39) := by
  refine ⟨by decide, by decide, by decide, by decide, by decide, by decide, by decide, ?_⟩
  intro y0
  have hc : (QuadraticForm.from_a_b_discriminant 3 3 ⟨-39⟩).form.c = 4 := by decide
  have ha : (QuadraticForm.from_a_b_discriminant 3 3 ⟨-39⟩).form.a = 3 := by decide
  have h1 : doubleWithXgcd 3 y0 (QuadraticForm.from_a_b_discriminant 3 3 ⟨-39⟩)
      = doubleWithBx 3 ((4 * y0) % 3) (QuadraticForm.from_a_b_discriminant 3 3 ⟨-39⟩) := by
    unfold doubleWithXgcd
    rw [if_neg (by norm_num), hc, ha]
  rw [h1]
  have hmod : (4 * y0) % 3 = y0 % 3 := by omega
  have h3 : y0 % 3 = 0 ∨ y0 % 3 = 1 ∨ y0 % 3 = 2 := by omega
  rw [hmod]
  rcases h3 with h | h | h <;> rw [h] <;> decide

end ClassGroupMod

namespace Compressed

open ClassGroupMod (BinaryQF isqrt IsCanonical)

/-- `CompressedFormat` from `fastcrypto/src/groups/classgroup.rs`: the factored
representation `(a', t', g, b0, b_sign)` of a form, tagged with its discriminant. -/
structure CompressedFormat where
  a_prime : Int
  t_prime : Int
  g : Int
  b0 : Int
  b_sign : Bool
  discriminant : Int
deriving DecidableEq

/-- `CompressedQuadraticForm`: the three-variant compressed encoding. -/
inductive CompressedQuadraticForm where
  | Identity (discriminant : Int)
  | Generator (discriminant : Int)
  | Nontrivial (format : CompressedFormat)
deriving DecidableEq

/-- The `while r.1 > a_sqrt` loop of `partial_xgcd` in `classgroup.rs` (curv `/` is
truncated division); returns `(r.1, s.1, t.1)`. The fuel only bounds the recursion and is
large enough for the loop to stop on its own on the inputs `compress` feeds it. -/
def partialXgcdLoop (a_sqrt : Int) : Nat → Int × Int → Int × Int → Int × Int →
    Int × Int × Int
  | 0, r, s, t => (r.2, s.2, t.2)
  | fuel + 1, r, s, t =>
    if a_sqrt < r.2 then
      let q := r.1.tdiv r.2
      partialXgcdLoop a_sqrt fuel (r.2, r.1 - q * r.2) (s.2, s.1 - q * s.2)
        (t.2, t.1 - q * t.2)
    else (r.2, s.2, t.2)

/-- `partial_xgcd(a, b)` from `classgroup.rs`: run until the remainder is at most
`a.sqrt()`, yielding `(r, s, t)` with `r = s*a + t*b`. -/
def partial_xgcd (a b : Int) : Int × Int × Int :=
  partialXgcdLoop (isqrt a.natAbs) (b.natAbs + 1) (a, b) (1, 0) (0, 1)

/-- `QuadraticForm::compress` from `fastcrypto/src/groups/classgroup.rs`: the identity and
generator short-circuits, the `a == b` branch producing the zeroed record, and the general
branch with `partial_xgcd`, `g = gcd(a, t')` and the `g == 1` shortcut. -/
def compress (f : BinaryQF) : CompressedQuadraticForm :=
  if f.a = 1 ∧ f.b = 1 then .Identity f.discriminant
  else if f.a = 2 ∧ f.b = 1 then .Generator f.discriminant
  else if f.a = f.b then
    .Nontrivial ⟨0, 0, 0, 0, false, f.discriminant⟩
  else
    let b_sign := f.b < 0
    let xg := partial_xgcd f.a |f.b|
    let t_prime0 := xg.2.2
    let g : Int := Int.gcd f.a t_prime0
    if g = 1 then
      .Nontrivial ⟨f.a, t_prime0, g, 0, b_sign, f.discriminant⟩
    else
      let a_prime := f.a.tdiv g
      let t_prime := t_prime0.tdiv g
      let b00 := (|f.b|).fdiv a_prime
      let b0 := if b_sign then -b00 else b00
      .Nontrivial ⟨a_prime, t_prime, g, b0, b_sign, f.discriminant⟩

/-- C4: `compress` maps every canonical form with `a = b` to the same zeroed `Nontrivial`
record, losing the form: the distinct canonical primitive forms `(3, 3, 17)` and
`(5, 5, 11)` of the same discriminant `-195` collide, so no decompression function can
invert `compress` on canonical forms (and the source's decompression of that record
divides by `a_prime = 0`). -/
theorem compress_a_eq_b_collision :
    compress { a := 3, b := 3, c := 17 } = compress { a := 5, b := 5, c := 11 } ∧
    (({ a := 3, b := 3, c := 17 } : BinaryQF) = { a := 5, b := 5, c := 11 } → False) ∧
    IsCanonical { a := 3, b := 3, c := 17 } ∧
    IsCanonical { a := 5, b := 5, c := 11 } ∧
    BinaryQF.discriminant { a := 3, b := 3, c := 17 } = -195 ∧
    BinaryQF.discriminant { a := 5, b := 5, c := 11 } = -195 ∧
    ClassGroupMod.tryFromDiscriminant (-195) = .ok ⟨-195⟩ ∧
    (∀ dec : CompressedQuadraticForm → BinaryQF,
      ¬(dec (compress { a := 3, b := 3, c := 17 }) = { a := 3, b := 3, c := 17 } ∧
        dec (compress { a := 5, b := 5, c := 11 }) = { a := 5, b := 5, c := 11 })) := by
  refine ⟨by decide, by decide, by decide, by decide, by decide, by decide, by decide, ?_⟩
  intro dec ⟨h1, h2⟩
  rw [show compress { a := 3, b := 3, c := 17 } = compress { a := 5, b := 5, c := 11 }
    from by decide] at h1
  rw [h2] at h1
  exact absurd h1 (by decide)

end Compressed

namespace Wesolowski

/-- The `ParameterizedGroupElement` trait interface of `fastcrypto-vdf/src/lib.rs` that
`WesolowskisVDF` is generic over: an additive group element type `G` parameterized by `P`
(the discriminant for class groups), with `add`, `zero`, `double`, scalar `mul` (scalar
type `BigInt`) and the `same_group` check. The VDF functions below are translated from
`fastcrypto-vdf/src/vdf/wesolowski.rs` over this interface, exactly as the source is
generic over the trait. -/
structure GroupApi (G P : Type) where
  add : G → G → G
  zero : P → G
  double : G → G
  mul : Int → G → G
  sameGroup : G → G → Bool

variable {G P : Type}

/-- The `for _ in 0..self.iterations { output = output.double(); }` loop of `evaluate`. -/
def repeatDouble (api : GroupApi G P) : Nat → G → G
  | 0, x => x
  | n + 1, x => repeatDouble api n (api.double x)

/-- The `for _ in 1..self.iterations` proof-accumulation loop of `evaluate`: the state is
`(quotient_remainder.1, proof)` and each round computes
`quotient_remainder = (remainder * 2).div_mod_floor(challenge)` (floor division) and
`proof = proof.double() + input.mul(quotient)`. -/
def proofLoop (api : GroupApi G P) (input : G) (challenge : Int) :
    Nat → Int → G → G
  | 0, _, prf => prf
  | n + 1, rem, prf =>
    let q := (rem * 2).fdiv challenge
    let r := (rem * 2).fmod challenge
    proofLoop api input challenge n r (api.add (api.double prf) (api.mul q input))

/-- `WesolowskisVDF::evaluate`: the `iterations == 0` early return, the doubling loop, the
Fiat-Shamir challenge (an abstract deterministic function of the configuration, input and
output, as `F::compute_challenge` is to the generic code) and the proof loop seeded with
`2.div_mod_floor(challenge)`. The source wraps the pair in `Ok`; it has no failure path. -/
def evaluate (api : GroupApi G P) (group_parameter : P) (iterations : Nat)
    (challengeFn : P → Nat → G → G → Int) (input : G) : G × G :=
  if iterations = 0 then (input, api.zero group_parameter)
  else
    let output := repeatDouble api iterations input
    let challenge := challengeFn group_parameter iterations input output
    let q := (2 : Int).fdiv challenge
    let r := (2 : Int).fmod challenge
    (output, proofLoop api input challenge (iterations - 1) r (api.mul q input))

/-- `WesolowskisVDF::verify`: the `same_group` guard returning `InvalidInput`, the
recomputed challenge, `f1 = proof.mul(challenge)`,
`r = 2^iterations mod challenge` (`BigInt::modpow`, embedded as the nonnegative remainder)
and `f2 = input.mul(r)`; `InvalidProof` when `f1 + f2 != output`. -/
def verify [DecidableEq G] (api : GroupApi G P) (group_parameter : P) (iterations : Nat)
    (challengeFn : P → Nat → G → G → Int) (input output proof : G) :
    Except FastCryptoError Unit :=
  if !(api.sameGroup input output) || !(api.sameGroup input proof) then
    .error .invalidInput
  else
    let challenge := challengeFn group_parameter iterations input output
    let f1 := api.mul challenge proof
    let r := ((2 : Int) ^ iterations) % challenge
    let f2 := api.mul r input
    if api.add f1 f2 ≠ output then .error .invalidProof
    else .ok ()

/-- Modelled from the spec: `ScalarMultiplier::two_scalar_mul` of the windowed multiplier
(`fastcrypto/src/groups/multiplier/windowed.rs` is not among the staged sources). Per the
specification it is a dual-scalar multiplication computing
`base_scalar * base_element + other_scalar * other_element`, the multiplier being built
with the fixed verification `input` as base. -/
def two_scalar_mul (api : GroupApi G P) (base : G) (base_scalar : Int)
    (other : G) (other_scalar : Int) : G :=
  api.add (api.mul base_scalar base) (api.mul other_scalar other)

/-- `FastVerifier::verify`: the same `same_group` guard and challenge, with the final
comparison `multiplier.two_scalar_mul(r, proof, challenge) != output`. -/
def fastVerify [DecidableEq G] (api : GroupApi G P) (group_parameter : P)
    (iterations : Nat) (challengeFn : P → Nat → G → G → Int)
    (input output proof : G) : Except FastCryptoError Unit :=
  if !(api.sameGroup input output) || !(api.sameGroup input proof) then
    .error .invalidInput
  else
    let challenge := challengeFn group_parameter iterations input output
    let r := ((2 : Int) ^ iterations) % challenge
    let actual := two_scalar_mul api input r proof challenge
    if actual ≠ output then .error .invalidProof else .ok ()

/-- A concrete instance of the group interface (the integers as additive group, one single
group), used to instantiate the generic theorems at concrete inputs. -/
def intApi : GroupApi Int Unit where
  add := fun x y => x + y
  zero := fun _ => 0
  double := fun x => 2 * x
  mul := fun s x => s * x
  sameGroup := fun _ _ => true

/-- A concrete challenge function for `intApi` (a fixed odd prime). -/
def chalConst : Unit → Nat → Int → Int → Int := fun _ _ _ _ => 3

/-- A concrete instance of the group interface whose elements carry a group tag in the
second component (mirroring quadratic forms of different discriminants), with `same_group`
comparing tags. -/
def pairApi : GroupApi (Int × Int) Int where
  add := fun x y => (x.1 + y.1, x.2)
  zero := fun p => (0, p)
  double := fun x => (2 * x.1, x.2)
  mul := fun s x => (s * x.1, x.2)
  sameGroup := fun x y => x.2 == y.2

/-- A concrete challenge function for `pairApi`. -/
def pairChal : Int → Nat → Int × Int → Int × Int → Int := fun _ _ _ _ => 3

theorem evaluate_zero (api : GroupApi G P) (p : P) (chal : P → Nat → G → G → Int)
    (input : G) : evaluate api p 0 chal input = (input, api.zero p) := by
  simp [evaluate]

theorem evaluate_succ (api : GroupApi G P) (p : P) (n : Nat)
    (chal : P → Nat → G → G → Int) (input : G) :
    evaluate api p (n + 1) chal input =
      (repeatDouble api (n + 1) input,
        proofLoop api input (chal p (n + 1) input (repeatDouble api (n + 1) input)) n
          ((2 : Int).fmod (chal p (n + 1) input (repeatDouble api (n + 1) input)))
          (api.mul ((2 : Int).fdiv (chal p (n + 1) input (repeatDouble api (n + 1) input)))
            input)) := by
  simp [evaluate]

theorem verify_spec [DecidableEq G] (api : GroupApi G P) (p : P) (T : Nat)
    (chal : P → Nat → G → G → Int) (i o pf : G) :
    (¬(api.sameGroup i o = true ∧ api.sameGroup i pf = true) →
      verify api p T chal i o pf = .error .invalidInput) ∧
    (api.sameGroup i o = true → api.sameGroup i pf = true →
      ((verify api p T chal i o pf = .ok () ↔
          api.add (api.mul (chal p T i o) pf)
            (api.mul (((2 : Int) ^ T) % chal p T i o) i) = o) ∧
        (api.add (api.mul (chal p T i o) pf)
            (api.mul (((2 : Int) ^ T) % chal p T i o) i) ≠ o →
          verify api p T chal i o pf = .error .invalidProof))) := by
  unfold verify
  constructor
  · intro h
    have hcond : (!(api.sameGroup i o) || !(api.sameGroup i pf)) = true := by
      cases ho : api.sameGroup i o <;> cases hp : api.sameGroup i pf <;> simp_all
    rw [if_pos hcond]
  · intro h1 h2
    rw [if_neg (by simp [h1, h2])]
    constructor
    · constructor
      · intro h
        by_contra hne
        rw [if_pos hne] at h
        exact absurd h (by simp)
      · intro h
        rw [if_neg (by simpa using h)]
    · intro hne
      rw [if_pos hne]

theorem fastVerify_spec [DecidableEq G] (api : GroupApi G P) (p : P) (T : Nat)
    (chal : P → Nat → G → G → Int) (i o pf : G) :
    (¬(api.sameGroup i o = true ∧ api.sameGroup i pf = true) →
      fastVerify api p T chal i o pf = .error .invalidInput) ∧
    (api.sameGroup i o = true → api.sameGroup i pf = true →
      ((fastVerify api p T chal i o pf = .ok () ↔
          two_scalar_mul api i (((2 : Int) ^ T) % chal p T i o) pf (chal p T i o) = o) ∧
        (two_scalar_mul api i (((2 : Int) ^ T) % chal p T i o) pf (chal p T i o) ≠ o →
          fastVerify api p T chal i o pf = .error .invalidProof))) := by
  unfold fastVerify
  constructor
  · intro h
    have hcond : (!(api.sameGroup i o) || !(api.sameGroup i pf)) = true := by
      cases ho : api.sameGroup i o <;> cases hp : api.sameGroup i pf <;> simp_all
    rw [if_pos hcond]
  · intro h1 h2
    rw [if_neg (by simp [h1, h2])]
    constructor
    · constructor
      · intro h
        by_contra hne
        rw [if_pos hne] at h
        exact absurd h (by simp)
      · intro h
        rw [if_neg (by simpa using h)]
    · intro hne
      rw [if_pos hne]

theorem repeatDouble_eq_mul (api : GroupApi G P)
    (hdouble : ∀ x, api.double x = api.add x x)
    (hdistrib : ∀ a b x, api.mul (a + b) x = api.add (api.mul a x) (api.mul b x))
    (hone : ∀ x, api.mul 1 x = x)
    (hmulmul : ∀ a b x, api.mul a (api.mul b x) = api.mul (a * b) x) :
    ∀ (n : Nat) (x : G), repeatDouble api n x = api.mul ((2 : Int) ^ n) x := by
  intro n
  induction n with
  | zero => intro x; rw [repeatDouble, pow_zero, hone]
  | succ n ih =>
    intro x
    have hd : api.double x = api.mul 2 x := by
      have h2 := hdistrib 1 1 x
      rw [hone] at h2
      norm_num at h2
      rw [hdouble]
      exact h2.symm
    rw [repeatDouble, ih, hd, hmulmul]
    congr 1

theorem proofLoop_spec (api : GroupApi G P) (input : G) (c : Int) (hc : 0 < c)
    (hdouble : ∀ x, api.double x = api.add x x)
    (hdistrib : ∀ a b x, api.mul (a + b) x = api.add (api.mul a x) (api.mul b x)) :
    ∀ (n j : Nat),
      proofLoop api input c n (((2 : Int) ^ (j + 1)) % c)
        (api.mul (((2 : Int) ^ (j + 1)) / c) input)
        = api.mul (((2 : Int) ^ (j + 1 + n)) / c) input := by
  intro n
  induction n with
  | zero => intro j; rw [proofLoop]
  | succ n ih =>
    intro j
    rw [proofLoop]
    have hc0 : c ≠ 0 := by omega
    have hfd : (((2 : Int) ^ (j + 1) % c) * 2).fdiv c = (((2 : Int) ^ (j + 1) % c) * 2) / c :=
      Int.fdiv_eq_ediv _ (le_of_lt hc)
    have hfm : (((2 : Int) ^ (j + 1) % c) * 2).fmod c = (((2 : Int) ^ (j + 1) % c) * 2) % c :=
      Int.fmod_eq_emod _ (le_of_lt hc)
    have hA : (2 : Int) ^ (j + 1 + 1) = ((2 : Int) ^ (j + 1) % c) * 2
        + c * (2 * ((2 : Int) ^ (j + 1) / c)) := by
      have hx := Int.ediv_add_emod ((2 : Int) ^ (j + 1)) c
      have hp : (2 : Int) ^ (j + 1 + 1) = (2 : Int) ^ (j + 1) * 2 := by ring
      rw [hp]
      linarith
    have hmod : (((2 : Int) ^ (j + 1) % c) * 2) % c = (2 : Int) ^ (j + 1 + 1) % c := by
      conv_rhs => rw [hA]
      rw [Int.add_mul_emod_self_left]
    have hdiv : (2 : Int) ^ (j + 1) / c + (2 : Int) ^ (j + 1) / c
        + (((2 : Int) ^ (j + 1) % c) * 2) / c = (2 : Int) ^ (j + 1 + 1) / c := by
      conv_rhs => rw [hA]
      rw [Int.add_mul_ediv_left _ _ hc0]
      ring
    simp only [hfd, hfm, hmod]
    rw [hdouble, ← hdistrib, ← hdistrib, hdiv]
    rw [show j + 1 + (n + 1) = j + 1 + 1 + n from by omega]
    exact ih (j + 1)

/-- C2: completeness of the Wesolowski VDF as the source implements it: whenever the group
interface satisfies the contract of the `ParameterizedGroupElement` trait (doubling is
addition with itself, scalar multiplication is additive and multiplicative in the scalar
with `1 * x = x`, the identity is absorbed, all elements are in one group) and the
Fiat-Shamir challenge is at least 2 (it is a 33-byte prime in the source),
`verify(input, output, proof)` accepts the pair returned by `evaluate(input)`, for every
group parameter, iteration count (including 0) and input. -/
theorem verify_accepts_evaluate [DecidableEq G] (api : GroupApi G P) (p : P) (T : Nat)
    (chal : P → Nat → G → G → Int) (input : G)
    (hdouble : ∀ x, api.double x = api.add x x)
    (hdistrib : ∀ a b x, api.mul (a + b) x = api.add (api.mul a x) (api.mul b x))
    (hmulmul : ∀ a b x, api.mul a (api.mul b x) = api.mul (a * b) x)
    (hone : ∀ x, api.mul 1 x = x)
    (hzero : ∀ (s : Int) (q : P), api.mul s (api.zero q) = api.zero q)
    (hzadd : ∀ (q : P) (x : G), api.add (api.zero q) x = x)
    (hsg : ∀ x y, api.sameGroup x y = true)
    (hchal : ∀ q n i o, 2 ≤ chal q n i o) :
    verify api p T chal input (evaluate api p T chal input).1
      (evaluate api p T chal input).2 = .ok () := by
  cases T with
  | zero =>
    rw [evaluate_zero]
    show verify api p 0 chal input input (api.zero p) = .ok ()
    have hs := (verify_spec api p 0 chal input input (api.zero p)).2 (hsg _ _) (hsg _ _)
    apply hs.1.mpr
    have hc := hchal p 0 input input
    rw [pow_zero, Int.emod_eq_of_lt (by omega) (by omega), hzero, hone, hzadd]
  | succ n =>
    rw [evaluate_succ]
    have hc := hchal p (n + 1) input (repeatDouble api (n + 1) input)
    have hc0 : (0 : Int) < chal p (n + 1) input (repeatDouble api (n + 1) input) := by omega
    set c := chal p (n + 1) input (repeatDouble api (n + 1) input) with hcdef
    have hprf : proofLoop api input c n ((2 : Int).fmod c)
        (api.mul ((2 : Int).fdiv c) input)
        = api.mul ((2 : Int) ^ (n + 1) / c) input := by
      have h1 : (2 : Int).fmod c = ((2 : Int) ^ (0 + 1)) % c := by
        rw [Int.fmod_eq_emod _ (le_of_lt hc0)]
        norm_num
      have h2 : (2 : Int).fdiv c = ((2 : Int) ^ (0 + 1)) / c := by
        rw [Int.fdiv_eq_ediv _ (le_of_lt hc0)]
        norm_num
      rw [h1, h2, proofLoop_spec api input c hc0 hdouble hdistrib n 0,
        show 0 + 1 + n = n + 1 from by omega]
    show verify api p (n + 1) chal input (repeatDouble api (n + 1) input)
      (proofLoop api input c n ((2 : Int).fmod c) (api.mul ((2 : Int).fdiv c) input))
      = .ok ()
    rw [hprf]
    have hs := (verify_spec api p (n + 1) chal input (repeatDouble api (n + 1) input)
      (api.mul ((2 : Int) ^ (n + 1) / c) input)).2 (hsg _ _) (hsg _ _)
    apply hs.1.mpr
    rw [hmulmul, ← hdistrib, Int.ediv_add_emod]
    exact (repeatDouble_eq_mul api hdouble hdistrib hone hmulmul (n + 1) input).symm

/-- Witness: the generic completeness theorem instantiated at the integer group, 3
iterations and input 5; `evaluate` returns `(40, 10)` and `verify` accepts it. -/
theorem verify_accepts_evaluate_instance :
    verify intApi () 3 chalConst 5 (evaluate intApi () 3 chalConst 5).1
      (evaluate intApi () 3 chalConst 5).2 = .ok () := by
  refine verify_accepts_evaluate intApi () 3 chalConst 5 ?_ ?_ ?_ ?_ ?_ ?_ ?_ ?_
  · intro x
    show 2 * x = x + x
    ring
  · intro a b x
    show (a + b) * x = a * x + b * x
    ring
  · intro a b x
    show a * (b * x) = a * b * x
    ring
  · intro x
    show 1 * x = x
    ring
  · intro s q
    show s * 0 = 0
    ring
  · intro q x
    show 0 + x = x
    ring
  · intro x y
    rfl
  · intro q n i o
    show (2 : Int) ≤ 3
    norm_num

/-- C5: `WesolowskisVDF::verify` returns `InvalidInput` exactly when the `same_group`
checks against the input fail, and otherwise recomputes the challenge and returns `Ok`
exactly when `proof * challenge + input * (2^iterations mod challenge) == output`,
returning `InvalidProof` when that group equation fails. -/
theorem verify_trichotomy [DecidableEq G] (api : GroupApi G P) (p : P) (T : Nat)
    (chal : P → Nat → G → G → Int) (i o pf : G) :
    (¬(api.sameGroup i o = true ∧ api.sameGroup i pf = true) →
      verify api p T chal i o pf = .error .invalidInput) ∧
    (api.sameGroup i o = true → api.sameGroup i pf = true →
      ((verify api p T chal i o pf = .ok () ↔
          api.add (api.mul (chal p T i o) pf)
            (api.mul (((2 : Int) ^ T) % chal p T i o) i) = o) ∧
        (api.add (api.mul (chal p T i o) pf)
            (api.mul (((2 : Int) ^ T) % chal p T i o) i) ≠ o →
          verify api p T chal i o pf = .error .invalidProof))) :=
  verify_spec api p T chal i o pf

/-- C6: for identical configuration and arguments, `FastVerifier::verify` (with the
spec-modelled dual-scalar multiplication) and `WesolowskisVDF::verify` return the same
result, for accepting and rejecting runs alike; the only difference between the two
comparisons is the order of the two summands, so commutativity of the group addition is
the one trait assumption used. -/
theorem fast_verifier_agreement [DecidableEq G] (api : GroupApi G P)
    (hcomm : ∀ x y, api.add x y = api.add y x) (p : P) (T : Nat)
    (chal : P → Nat → G → G → Int) (input output proof : G) :
    fastVerify api p T chal input output proof = verify api p T chal input output proof := by
  by_cases hio : api.sameGroup input output = true ∧ api.sameGroup input proof = true
  · obtain ⟨h1, h2⟩ := hio
    have hv := (verify_spec api p T chal input output proof).2 h1 h2
    have hf := (fastVerify_spec api p T chal input output proof).2 h1 h2
    have heq : two_scalar_mul api input (((2 : Int) ^ T) % chal p T input output) proof
        (chal p T input output)
        = api.add (api.mul (chal p T input output) proof)
          (api.mul (((2 : Int) ^ T) % chal p T input output) input) := by
      unfold two_scalar_mul
      exact hcomm _ _
    by_cases he : api.add (api.mul (chal p T input output) proof)
        (api.mul (((2 : Int) ^ T) % chal p T input output) input) = output
    · rw [hv.1.mpr he, hf.1.mpr (by rw [heq]; exact he)]
    · rw [hv.2 he, hf.2 (by rw [heq]; exact he)]
  · rw [(verify_spec api p T chal input output proof).1 hio,
      (fastVerify_spec api p T chal input output proof).1 hio]

/-- Witness: the agreement theorem applied at the integer group on concrete arguments. -/
theorem fast_verifier_agreement_instance :
    fastVerify intApi () 4 chalConst 7 9 11 = verify intApi () 4 chalConst 7 9 11 :=
  fast_verifier_agreement intApi (fun x y => by show x + y = y + x; ring) () 4 chalConst 7 9 11

/-- C7: `evaluate` returns as output the result of `iterations` successive doublings of
the input (equal to `2^iterations * input` whenever the interface satisfies the scalar
multiplication contract), and returns the pair `(input, zero(parameter))` when
`iterations == 0`. -/
theorem evaluate_output_doublings (api : GroupApi G P) (p : P) (T : Nat)
    (chal : P → Nat → G → G → Int) (input : G) :
    (evaluate api p T chal input).1 = repeatDouble api T input ∧
    ((∀ x, api.double x = api.add x x) →
      (∀ a b x, api.mul (a + b) x = api.add (api.mul a x) (api.mul b x)) →
      (∀ x, api.mul 1 x = x) →
      (∀ a b x, api.mul a (api.mul b x) = api.mul (a * b) x) →
      (evaluate api p T chal input).1 = api.mul ((2 : Int) ^ T) input) ∧
    (T = 0 → evaluate api p T chal input = (input, api.zero p)) := by
  have h1 : (evaluate api p T chal input).1 = repeatDouble api T input := by
    cases T with
    | zero => rw [evaluate_zero]; rfl
    | succ n => rw [evaluate_succ]
  refine ⟨h1, fun hdouble hdistrib hone hmulmul => ?_, fun h => ?_⟩
  · rw [h1, repeatDouble_eq_mul api hdouble hdistrib hone hmulmul]
  · subst h
    exact evaluate_zero api p chal input

/-- C9 counterexample: a verification failure that is not `InvalidProof`: on arguments
whose groups do not match, both verifiers return `InvalidInput`, which differs from
`InvalidProof`. -/
theorem verify_mismatch_cex :
    verify pairApi 0 5 pairChal (1, 0) (1, 1) (1, 0) = .error .invalidInput ∧
    fastVerify pairApi 0 5 pairChal (1, 0) (1, 1) (1, 0) = .error .invalidInput ∧
    (FastCryptoError.invalidInput = FastCryptoError.invalidProof → False) := by decide

/-- C9 (amended): both verifiers report errors in exactly two kinds: `InvalidInput` when
the arguments are not all in the input's group, and otherwise every error they return is
`InvalidProof` (input-shape failures are distinguishable from equation failures at the API
boundary, contrary to the claim's uniform-`InvalidProof` requirement). -/
theorem verify_error_taxonomy [DecidableEq G] (api : GroupApi G P) (p : P) (T : Nat)
    (chal : P → Nat → G → G → Int) (input output proof : G) :
    (¬(api.sameGroup input output = true ∧ api.sameGroup input proof = true) →
      verify api p T chal input output proof = .error .invalidInput ∧
      fastVerify api p T chal input output proof = .error .invalidInput) ∧
    (api.sameGroup input output = true → api.sameGroup input proof = true →
      (∀ e, verify api p T chal input output proof = .error e → e = .invalidProof) ∧
      (∀ e, fastVerify api p T chal input output proof = .error e → e = .invalidProof)) := by
  constructor
  · intro h
    exact ⟨(verify_spec api p T chal input output proof).1 h,
      (fastVerify_spec api p T chal input output proof).1 h⟩
  · intro h1 h2
    have hv := (verify_spec api p T chal input output proof).2 h1 h2
    have hf := (fastVerify_spec api p T chal input output proof).2 h1 h2
    constructor
    · intro e he
      by_cases heq : api.add (api.mul (chal p T input output) proof)
          (api.mul (((2 : Int) ^ T) % chal p T input output) input) = output
      · rw [hv.1.mpr heq] at he
        exact absurd he (by simp)
      · rw [hv.2 heq] at he
        injection he with h
        exact h.symm
    · intro e he
      by_cases heq : two_scalar_mul api input (((2 : Int) ^ T) % chal p T input output)
          proof (chal p T input output) = output
      · rw [hf.1.mpr heq] at he
        exact absurd he (by simp)
      · rw [hf.2 heq] at he
        injection he with h
        exact h.symm

end Wesolowski
